import Mathlib

/-!
# Weekly availability scheduler (`src/App.jsx`)

A shallow embedding of the scheduling core of the `App` component: the
hour formatter `formatTime`, the range compressor `formatSlotsForDay`,
the block calculator `calculateBlocks`, and the event handlers that
drive the selection state (`handleHourSelect`, `handleConfirm`,
`handleBackToWeekly`, `handleDayClick`, `handleEditClick`).

Hours are natural numbers (the source stores them as non-negative
integers in 24-hour format).  JavaScript arrays are Lean lists.  The
four `useState` cells of the component are the four fields of
`AppState`; a handler is a function from the state in which the event
fires to the state after React has applied the queued updates.
-/

namespace ScheduleApp

/-! ## Data model -/

/-- The seven keys of the `schedule` object, in source order. -/
inductive Day
  | Monday | Tuesday | Wednesday | Thursday | Friday | Saturday | Sunday
  deriving DecidableEq, Repr

/-- The `page` field of `view`. -/
inductive Page
  | weekly | daily | edit
  deriving DecidableEq, Repr

/-- The `view` state cell: `{ page, day }`, where `day` may be `null`. -/
structure View where
  page : Page
  day : Option Day
  deriving DecidableEq, Repr

/-- The `schedule` state cell: an array of booked hours for every day. -/
abbrev Schedule := Day → List Nat

/-- The component state: `view`, `schedule`, `tempSelection`, `selectionStart`. -/
structure AppState where
  view : View
  schedule : Schedule
  tempSelection : List Nat
  selectionStart : Option Nat

/-- The seed passed to `useState` for `schedule` (lines 33-41). -/
def initialSchedule : Schedule
  | Day.Monday => [6, 7, 8, 9, 17, 18, 19, 21]
  | Day.Saturday => [6, 7, 8, 9, 10, 11, 12, 13, 14, 15, 16, 17, 18, 19, 20, 21]
  | _ => []

/-- The state of a freshly mounted component (lines 29-47). -/
def initialState : AppState :=
  { view := { page := Page.weekly, day := none }
    schedule := initialSchedule
    tempSelection := []
    selectionStart := none }

/-! ## JavaScript array helpers -/

/-- The array `[...new Set(xs)]`: a `Set` keeps the first occurrence of every
value, in insertion order. -/
def setSpread : List Nat → List Nat
  | [] => []
  | x :: xs => x :: (setSpread xs).filter (fun y => y ≠ x)

/-- The array `[...xs].sort((a, b) => a - b)`: a stable ascending sort. -/
def sortAscending (xs : List Nat) : List Nat :=
  List.insertionSort (fun a b => a ≤ b) xs

/-! ## Time model -/

/-- The function `formatTime` (lines 53-58). -/
def formatTime (hour : Nat) : String :=
  if hour = 24 then "12 AM"
  else if hour = 12 then "12 PM"
  else if hour > 12 then toString (hour - 12) ++ " PM"
  else toString hour ++ " AM"

/-! ## Range compressor -/

/-- The `for` loop of `formatSlotsForDay` (lines 73-85).  The first argument is
the part of `sortedHours` from index `i` on, so that its head is `currentHour`
and the element after it, when there is one, is `nextHour`; at the last index
`nextHour` is `undefined`, which is never equal to `currentHour + 1`. -/
def closeRanges : List Nat → Nat → List String → List String
  | [], _, ranges => ranges
  | [currentHour], startRange, ranges =>
      ranges ++ [formatTime startRange ++ " to " ++ formatTime (currentHour + 1)]
  | currentHour :: nextHour :: rest, startRange, ranges =>
      if nextHour ≠ currentHour + 1 then
        closeRanges (nextHour :: rest) nextHour
          (ranges ++ [formatTime startRange ++ " to " ++ formatTime (currentHour + 1)])
      else
        closeRanges (nextHour :: rest) startRange ranges

/-- The function `formatSlotsForDay` (lines 65-87). -/
def formatSlotsForDay (schedule : Schedule) (day : Day) : String :=
  let hours := schedule day
  if hours.length = 0 then ""
  else
    let sortedHours := sortAscending hours
    let startRange := sortedHours.headD 0
    ", ".intercalate (closeRanges sortedHours startRange [])

/-! ## Block calculator -/

/-- One record pushed by `calculateBlocks`: `{ startHour, top, height }`. -/
structure Block where
  startHour : Nat
  top : String
  height : String
  deriving DecidableEq, Repr

/-- The inner `while` loop of `calculateBlocks` (lines 202-204), started at
`endIndex`.  The first argument bounds the number of iterations; the result is
`none` when the bound is reached with the loop condition still true. -/
def extendBlock (hours bookedHours : List Nat) : Nat → Nat → Option Nat
  | 0, endIndex =>
      if endIndex + 1 < hours.length ∧ hours.getD (endIndex + 1) 0 ∈ bookedHours then none
      else some endIndex
  | fuel + 1, endIndex =>
      if endIndex + 1 < hours.length ∧ hours.getD (endIndex + 1) 0 ∈ bookedHours then
        extendBlock hours bookedHours fuel (endIndex + 1)
      else some endIndex

/-- The outer `while` loop of `calculateBlocks` (lines 197-216), started at index
`i` with the records pushed so far.  The first argument bounds the number of
iterations; the result is `none` when the bound is reached with `i` still inside
the array. -/
def blocksLoop (hours bookedHours : List Nat) : Nat → Nat → List Block → Option (List Block)
  | 0, i, blocks => if i < hours.length then none else some blocks
  | fuel + 1, i, blocks =>
      if i < hours.length then
        let hour := hours.getD i 0
        if hour ∈ bookedHours then
          let startIndex := i
          match extendBlock hours bookedHours hours.length i with
          | none => none
          | some endIndex =>
              blocksLoop hours bookedHours fuel (endIndex + 1)
                (blocks ++ [{ startHour := hour
                              top := toString (startIndex * 3) ++ "rem"
                              height := toString ((endIndex - startIndex + 1) * 3) ++ "rem" }])
        else
          blocksLoop hours bookedHours fuel (i + 1) blocks
      else some blocks

/-- The function `calculateBlocks` (lines 194-218).  Every iteration of either
loop advances its index, so `hours.length` iterations are enough; this is
proved below (`calculateBlocks_total`). -/
def calculateBlocks (hours bookedHours : List Nat) : Option (List Block) :=
  blocksLoop hours bookedHours hours.length 0 []

/-- The candidate grid of `renderTimeSlots` (line 222):
`Array.from({ length: 17 }, (_, i) => i + 6)`. -/
def gridHours : List Nat := (List.range 17).map (fun i => i + 6)

/-! ## Event handlers -/

/-- The handler `handleDayClick` (lines 92-94). -/
def handleDayClick (s : AppState) (day : Day) : AppState :=
  { s with view := { page := Page.daily, day := some day } }

/-- The handler `handleEditClick` (lines 96-98). -/
def handleEditClick (s : AppState) (day : Day) : AppState :=
  { s with view := { page := Page.edit, day := some day } }

/-- The handler `handleBackToWeekly` (lines 100-104); it is also the Cancel button. -/
def handleBackToWeekly (s : AppState) : AppState :=
  { s with view := { page := Page.weekly, day := none }
           tempSelection := []
           selectionStart := none }

/-- The `for` loop of `handleHourSelect` (lines 125-131): the hours from `start`
to `stop`, both included, that are not booked. -/
def newRange (booked : List Nat) (start stop : Nat) : List Nat :=
  (List.range' start (stop + 1 - start)).filter (fun i => i ∉ booked)

/-- The handler `handleHourSelect` (lines 107-137).  The result is `none` when
`view.day` is `null`: `schedule[null]` is `undefined` and the call of `includes`
on it throws.  The test `!selectionStart` holds for `null` and also for the
number `0`. -/
def handleHourSelect (s : AppState) (hour : Nat) : Option AppState :=
  match s.view.day with
  | none => none
  | some day =>
    if hour ∈ s.schedule day then some s
    else if hour ∈ s.tempSelection then
      some { s with tempSelection := s.tempSelection.filter (fun h => h ≠ hour) }
    else
      match s.selectionStart with
      | none =>
          some { s with selectionStart := some hour
                        tempSelection := s.tempSelection ++ [hour] }
      | some 0 =>
          some { s with selectionStart := some hour
                        tempSelection := s.tempSelection ++ [hour] }
      | some (a + 1) =>
          let start := min (a + 1) hour
          let stop := max (a + 1) hour
          some { s with tempSelection :=
                          setSpread (s.tempSelection ++ newRange (s.schedule day) start stop)
                        selectionStart := none }

/-- The expression computed inside the `setSchedule` updater (line 144):
`[...new Set([...existingHours, ...tempSelection])].sort((a, b) => a - b)`. -/
def mergeHours (existingHours tempSelection : List Nat) : List Nat :=
  sortAscending (setSpread (existingHours ++ tempSelection))

/-- The handler `handleConfirm` (lines 140-150).  The result is `none` when
`view.day` is `null`: `prevSchedule[null]` is `undefined` and spreading it
throws. -/
def handleConfirm (s : AppState) : Option AppState :=
  match s.view.day with
  | none => none
  | some day =>
    some (handleBackToWeekly
      { s with schedule :=
                 Function.update s.schedule day (mergeHours (s.schedule day) s.tempSelection) })

/-- One user gesture: any handler of the component, fired in any state in
which it does not throw. -/
inductive Step : AppState → AppState → Prop
  | dayClick (s : AppState) (day : Day) : Step s (handleDayClick s day)
  | editClick (s : AppState) (day : Day) : Step s (handleEditClick s day)
  | backToWeekly (s : AppState) : Step s (handleBackToWeekly s)
  | hourSelect (s t : AppState) (hour : Nat) (h : handleHourSelect s hour = some t) : Step s t
  | confirm (s t : AppState) (h : handleConfirm s = some t) : Step s t

/-- The states reachable from `s0` by a finite sequence of gestures. -/
inductive Reachable (s0 : AppState) : AppState → Prop
  | start : Reachable s0 s0
  | next (s t : AppState) (hs : Reachable s0 s) (hst : Step s t) : Reachable s0 t

/-! ## Runs of consecutive hours -/

/-- The pairs (first hour, last hour) of the ranges that the loop of
`formatSlotsForDay` closes: `closeRanges` with the label of each range replaced
by its two ends. -/
def closeRuns : List Nat → Nat → List (Nat × Nat)
  | [], _ => []
  | [currentHour], startRange => [(startRange, currentHour)]
  | currentHour :: nextHour :: rest, startRange =>
      if nextHour ≠ currentHour + 1 then
        (startRange, currentHour) :: closeRuns (nextHour :: rest) nextHour
      else
        closeRuns (nextHour :: rest) startRange

/-- The label of the range of hours `p.1, ..., p.2`: the label of its first hour,
" to ", and the label of the hour after its last hour. -/
def rangeLabel (p : Nat × Nat) : String :=
  formatTime p.1 ++ " to " ++ formatTime (p.2 + 1)

/-- The hours `s, s + 1, ..., e` form a maximal run of the set `mem`: all of
them are in the set, and neither the hour before `s` nor the hour after `e` is. -/
def MaxRunOf (mem : Nat → Prop) (s e : Nat) : Prop :=
  s ≤ e ∧ (∀ k, s ≤ k → k ≤ e → mem k) ∧ (∀ k, k + 1 = s → ¬ mem k) ∧ ¬ mem (e + 1)

/-- The hours `s, ..., e` form a maximal run of consecutive hours of the array `hs`. -/
def IsMaximalRun (hs : List Nat) (s e : Nat) : Prop :=
  MaxRunOf (fun k => k ∈ hs) s e

instance decidableIsMaximalRun (hs : List Nat) (s e : Nat) : Decidable (IsMaximalRun hs s e) :=
  decidable_of_iff
    (s ≤ e ∧ (∀ k ∈ List.range' s (e + 1 - s), k ∈ hs) ∧ (s = 0 ∨ s - 1 ∉ hs) ∧ e + 1 ∉ hs)
    (by
      unfold IsMaximalRun MaxRunOf
      constructor
      · rintro ⟨h1, h2, h3, h4⟩
        refine ⟨h1, ?_, ?_, h4⟩
        · intro k hk1 hk2
          exact h2 k (List.mem_range'_1.mpr ⟨hk1, by omega⟩)
        · intro k hk hmem
          rcases h3 with h3 | h3
          · omega
          · apply h3
            have : s - 1 = k := by omega
            rw [this]
            exact hmem
      · rintro ⟨h1, h2, h3, h4⟩
        refine ⟨h1, ?_, ?_, h4⟩
        · intro k hk
          have := List.mem_range'_1.mp hk
          exact h2 k this.1 (by omega)
        · by_cases hs0 : s = 0
          · exact Or.inl hs0
          · exact Or.inr (h3 (s - 1) (by omega)))

/-- Position `k` of the candidate array holds a booked hour. -/
def BookedAt (hours bookedHours : List Nat) (k : Nat) : Prop :=
  k < hours.length ∧ hours.getD k 0 ∈ bookedHours

instance decidableBookedAt (hours bookedHours : List Nat) (k : Nat) :
    Decidable (BookedAt hours bookedHours k) :=
  inferInstanceAs (Decidable (k < hours.length ∧ hours.getD k 0 ∈ bookedHours))

/-- The record that `calculateBlocks` pushes for the run of positions
`p.1, ..., p.2`: the hour at the first position, `top` three times the first
position and `height` three times the number of positions, both in rem. -/
def blockOfRun (hours : List Nat) (p : Nat × Nat) : Block :=
  { startHour := hours.getD p.1 0
    top := toString (p.1 * 3) ++ "rem"
    height := toString ((p.2 - p.1 + 1) * 3) ++ "rem" }

/-! ## Example states -/

/-- Editing Tuesday with hour 8 booked, hour 6 pending and the anchor at 6. -/
def rangeExample : AppState :=
  { view := { page := Page.edit, day := some Day.Tuesday }
    schedule := fun _ => [8]
    tempSelection := [6]
    selectionStart := some 6 }

/-- Editing Monday of the seed schedule with hour 12 pending and no anchor. -/
def bookedExample : AppState :=
  { view := { page := Page.edit, day := some Day.Monday }
    schedule := initialSchedule
    tempSelection := [12]
    selectionStart := none }

/-- Editing Tuesday of the seed schedule right after a first tap on hour 6. -/
def toggleExample : AppState :=
  { view := { page := Page.edit, day := some Day.Tuesday }
    schedule := initialSchedule
    tempSelection := [6]
    selectionStart := some 6 }

/-- Editing Tuesday of the seed schedule, nothing tapped yet. -/
def editTuesday : AppState :=
  { view := { page := Page.edit, day := some Day.Tuesday }
    schedule := initialSchedule
    tempSelection := []
    selectionStart := none }

/-- Every booked array and the pending array are free of duplicates. -/
def DuplicateFree (s : AppState) : Prop :=
  (∀ d, (s.schedule d).Nodup) ∧ s.tempSelection.Nodup

/-! ## Facts about the array helpers -/

theorem mem_setSpread (y : Nat) (xs : List Nat) : y ∈ setSpread xs ↔ y ∈ xs := by
  induction xs with
  | nil => simp [setSpread]
  | cons x xs ih =>
    simp only [setSpread, List.mem_cons, List.mem_filter, ih]
    by_cases hyx : y = x
    · simp [hyx]
    · simp [hyx]

theorem nodup_setSpread (xs : List Nat) : (setSpread xs).Nodup := by
  induction xs with
  | nil => simp [setSpread]
  | cons x xs ih =>
    simp only [setSpread, List.nodup_cons, List.mem_filter]
    refine ⟨?_, ih.filter _⟩
    simp

theorem mem_sortAscending (y : Nat) (xs : List Nat) : y ∈ sortAscending xs ↔ y ∈ xs := by
  unfold sortAscending
  exact List.mem_insertionSort _

theorem sorted_sortAscending (xs : List Nat) :
    (sortAscending xs).Sorted (fun a b => a ≤ b) := by
  unfold sortAscending
  exact List.sorted_insertionSort _ xs

theorem nodup_sortAscending (xs : List Nat) (h : xs.Nodup) : (sortAscending xs).Nodup := by
  unfold sortAscending
  exact (List.perm_insertionSort _ xs).nodup_iff.mpr h

theorem strictSorted_sortAscending (xs : List Nat) (h : xs.Nodup) :
    (sortAscending xs).Sorted (fun a b => a < b) :=
  (sorted_sortAscending xs).lt_of_le (nodup_sortAscending xs h)

theorem mem_newRange (booked : List Nat) (start stop i : Nat) :
    i ∈ newRange booked start stop ↔ start ≤ i ∧ i ≤ stop ∧ i ∉ booked := by
  unfold newRange
  simp only [List.mem_filter, List.mem_range'_1, decide_eq_true_eq]
  constructor
  · rintro ⟨⟨h1, h2⟩, h3⟩
    exact ⟨h1, by omega, h3⟩
  · rintro ⟨h1, h2, h3⟩
    exact ⟨⟨h1, by omega⟩, h3⟩

theorem mem_mergeHours (x : Nat) (existingHours tempSelection : List Nat) :
    x ∈ mergeHours existingHours tempSelection ↔ x ∈ existingHours ∨ x ∈ tempSelection := by
  unfold mergeHours
  rw [mem_sortAscending, mem_setSpread, List.mem_append]

theorem nodup_mergeHours (existingHours tempSelection : List Nat) :
    (mergeHours existingHours tempSelection).Nodup :=
  nodup_sortAscending _ (nodup_setSpread _)

theorem strictSorted_mergeHours (existingHours tempSelection : List Nat) :
    (mergeHours existingHours tempSelection).Sorted (fun a b => a < b) :=
  strictSorted_sortAscending _ (nodup_setSpread _)

/-- Two strictly ascending lists with the same members are the same list. -/
theorem eq_of_strictSorted_of_mem_iff (l₁ l₂ : List Nat)
    (h₁ : l₁.Sorted (fun a b => a < b)) (h₂ : l₂.Sorted (fun a b => a < b))
    (hmem : ∀ x, x ∈ l₁ ↔ x ∈ l₂) : l₁ = l₂ :=
  List.eq_of_perm_of_sorted ((List.perm_ext_iff_of_nodup h₁.nodup h₂.nodup).mpr hmem) h₁ h₂

theorem mergeHours_idem (b p : List Nat) : mergeHours (mergeHours b p) p = mergeHours b p := by
  apply eq_of_strictSorted_of_mem_iff _ _ (strictSorted_mergeHours _ _) (strictSorted_mergeHours _ _)
  intro x
  simp only [mem_mergeHours]
  tauto

/-! ## Selection engine -/

/-- The range-completion branch of `handleHourSelect`, for any anchor that the
test `!selectionStart` takes as set (any anchor other than `0`). -/
theorem handleHourSelect_range (s : AppState) (day : Day) (a h : Nat)
    (hday : s.view.day = some day) (ha : s.selectionStart = some a) (ha0 : a ≠ 0)
    (hB : h ∉ s.schedule day) (hP : h ∉ s.tempSelection) :
    handleHourSelect s h =
      some { s with tempSelection :=
                      setSpread (s.tempSelection ++ newRange (s.schedule day) (min a h) (max a h))
                    selectionStart := none } := by
  obtain ⟨k, rfl⟩ := Nat.exists_eq_succ_of_ne_zero ha0
  unfold handleHourSelect
  simp only [hday, ha, hB, hP, if_false]

/-- The first-click branch of `handleHourSelect` when no anchor is set. -/
theorem handleHourSelect_first (s : AppState) (day : Day) (h : Nat)
    (hday : s.view.day = some day) (ha : s.selectionStart = none)
    (hB : h ∉ s.schedule day) (hP : h ∉ s.tempSelection) :
    handleHourSelect s h =
      some { s with selectionStart := some h, tempSelection := s.tempSelection ++ [h] } := by
  unfold handleHourSelect
  simp only [hday, ha, hB, hP, if_false]

/-- The toggle-off branch of `handleHourSelect`. -/
theorem handleHourSelect_toggle (s : AppState) (day : Day) (h : Nat)
    (hday : s.view.day = some day)
    (hB : h ∉ s.schedule day) (hP : h ∈ s.tempSelection) :
    handleHourSelect s h =
      some { s with tempSelection := s.tempSelection.filter (fun x => x ≠ h) } := by
  unfold handleHourSelect
  simp only [hday, hB, hP, if_false, if_true]

/-- The booked branch of `handleHourSelect`. -/
theorem handleHourSelect_booked (s : AppState) (day : Day) (h : Nat)
    (hday : s.view.day = some day) (hB : h ∈ s.schedule day) :
    handleHourSelect s h = some s := by
  unfold handleHourSelect
  simp only [hday, hB, if_true]

theorem handleConfirm_eq (s : AppState) (day : Day) (hday : s.view.day = some day) :
    handleConfirm s =
      some (handleBackToWeekly
        { s with schedule :=
                   Function.update s.schedule day
                     (mergeHours (s.schedule day) s.tempSelection) }) := by
  unfold handleConfirm
  simp only [hday]

/-! ## Claims about the selection engine and the store -/

/-- C1: range completion. With the anchor set at `a`, and `a`, `h` in the grid
6..22, tapping an hour `h` that is neither booked nor pending leaves the pending
array holding exactly the old pending hours together with the unbooked hours
between `min a h` and `max a h`, both ends included, without duplicates, and
leaves the anchor unset. -/
theorem handleHourSelect_range_completion (s : AppState) (day : Day) (a h : Nat)
    (hday : s.view.day = some day) (ha : s.selectionStart = some a)
    (hagrid : 6 ≤ a ∧ a ≤ 22) (_hhgrid : 6 ≤ h ∧ h ≤ 22)
    (hB : h ∉ s.schedule day) (hP : h ∉ s.tempSelection) :
    ∃ t, handleHourSelect s h = some t ∧
      (∀ i, i ∈ t.tempSelection ↔
        i ∈ s.tempSelection ∨ (min a h ≤ i ∧ i ≤ max a h ∧ i ∉ s.schedule day)) ∧
      t.tempSelection.Nodup ∧ t.selectionStart = none ∧
      t.schedule = s.schedule ∧ t.view = s.view := by
  refine ⟨_, handleHourSelect_range s day a h hday ha (by omega) hB hP, ?_, ?_, rfl, rfl, rfl⟩
  · intro i
    simp only [mem_setSpread, List.mem_append, mem_newRange]
  · exact nodup_setSpread _

/-- C1, at the example of the specification: booked {8}, anchor at 6 with
pending {6}, completing at 10 gives pending 6, 7, 9, 10 and no anchor. -/
theorem handleHourSelect_range_completion_witness :
    (∃ t, handleHourSelect rangeExample 10 = some t ∧
      (∀ i, i ∈ t.tempSelection ↔
        i ∈ rangeExample.tempSelection ∨
          (min 6 10 ≤ i ∧ i ≤ max 6 10 ∧ i ∉ rangeExample.schedule Day.Tuesday)) ∧
      t.tempSelection.Nodup ∧ t.selectionStart = none ∧
      t.schedule = rangeExample.schedule ∧ t.view = rangeExample.view) ∧
    (handleHourSelect rangeExample 10).map (fun t => (t.tempSelection, t.selectionStart))
      = some ([6, 7, 9, 10], none) :=
  ⟨handleHourSelect_range_completion rangeExample Day.Tuesday 6 10 rfl rfl
      (by decide) (by decide) (by decide) (by decide), by decide⟩

/-- C2: booked-hour immutability. Tapping an hour that is booked for the day
being edited changes nothing in the state, and after the commit that follows
the hour is still booked for that day. -/
theorem handleHourSelect_booked_immutable (s : AppState) (day : Day) (h : Nat)
    (hday : s.view.day = some day) (hB : h ∈ s.schedule day) :
    handleHourSelect s h = some s ∧
      ∃ t, handleConfirm s = some t ∧ h ∈ t.schedule day := by
  refine ⟨handleHourSelect_booked s day h hday hB, _, handleConfirm_eq s day hday, ?_⟩
  simp only [handleBackToWeekly, Function.update_same, mem_mergeHours]
  exact Or.inl hB

/-- C2, on Monday of the seed schedule with hour 7. -/
theorem handleHourSelect_booked_immutable_witness :
    7 ∈ bookedExample.schedule Day.Monday ∧
    (handleHourSelect bookedExample 7 = some bookedExample ∧
      ∃ t, handleConfirm bookedExample = some t ∧ 7 ∈ t.schedule Day.Monday) :=
  ⟨by decide, handleHourSelect_booked_immutable bookedExample Day.Monday 7 rfl (by decide)⟩

/-- C3: commit. Confirming while editing day `d` succeeds; the new schedule is
the old one with only the entry of `d` replaced; that entry has no duplicates,
is in strictly ascending order and holds exactly the hours that were booked for
`d` or pending; every other day keeps its array. -/
theorem handleConfirm_commit (s : AppState) (d : Day) (hday : s.view.day = some d) :
    ∃ t, handleConfirm s = some t ∧
      t.schedule = Function.update s.schedule d (t.schedule d) ∧
      (t.schedule d).Nodup ∧
      (t.schedule d).Sorted (fun a b => a < b) ∧
      (∀ x, x ∈ t.schedule d ↔ x ∈ s.schedule d ∨ x ∈ s.tempSelection) ∧
      (∀ e, e ≠ d → t.schedule e = s.schedule e) := by
  refine ⟨_, handleConfirm_eq s d hday, ?_, ?_, ?_, ?_, ?_⟩
  · simp only [handleBackToWeekly, Function.update_same]
  · simp only [handleBackToWeekly, Function.update_same]
    exact nodup_mergeHours _ _
  · simp only [handleBackToWeekly, Function.update_same]
    exact strictSorted_mergeHours _ _
  · intro x
    simp only [handleBackToWeekly, Function.update_same, mem_mergeHours]
  · intro e he
    simp only [handleBackToWeekly, Function.update_noteq he]

/-- C3, on Monday of the seed schedule with hour 12 pending. -/
theorem handleConfirm_commit_witness :
    (∃ t, handleConfirm bookedExample = some t ∧
      t.schedule = Function.update bookedExample.schedule Day.Monday (t.schedule Day.Monday) ∧
      (t.schedule Day.Monday).Nodup ∧
      (t.schedule Day.Monday).Sorted (fun a b => a < b) ∧
      (∀ x, x ∈ t.schedule Day.Monday ↔
        x ∈ bookedExample.schedule Day.Monday ∨ x ∈ bookedExample.tempSelection) ∧
      (∀ e, e ≠ Day.Monday → t.schedule e = bookedExample.schedule e)) ∧
    (handleConfirm bookedExample).map (fun t => t.schedule Day.Monday)
      = some [6, 7, 8, 9, 12, 17, 18, 19, 21] :=
  ⟨handleConfirm_commit bookedExample Day.Monday rfl, by decide⟩

/-- C8: idempotent merge. Merging the pending hours `p` into the result of
merging `p` into the booked hours `b` gives the same array as merging once;
and confirming the same pending hours for the same day a second time leaves
the schedule as the first confirmation left it. -/
theorem mergeHours_idempotent (b p : List Nat) :
    mergeHours (mergeHours b p) p = mergeHours b p ∧
    ∀ (s : AppState) (d : Day), s.view.day = some d → s.schedule d = b → s.tempSelection = p →
      ∃ t u, handleConfirm s = some t ∧
        handleConfirm { t with view := s.view, tempSelection := p } = some u ∧
        u.schedule = t.schedule := by
  refine ⟨mergeHours_idem b p, ?_⟩
  intro s d hday hb hp
  refine ⟨_, _, handleConfirm_eq s d hday, handleConfirm_eq _ d hday, ?_⟩
  simp only [handleBackToWeekly, Function.update_same, Function.update_idem, hb, hp,
    mergeHours_idem]

/-- C8, on Monday of the seed schedule with hour 12 pending. -/
theorem mergeHours_idempotent_witness :
    mergeHours (mergeHours [6, 7, 8, 9, 17, 18, 19, 21] [12]) [12]
        = mergeHours [6, 7, 8, 9, 17, 18, 19, 21] [12] ∧
    ∃ t u, handleConfirm bookedExample = some t ∧
      handleConfirm { t with view := bookedExample.view, tempSelection := [12] } = some u ∧
      u.schedule = t.schedule :=
  ⟨(mergeHours_idempotent [6, 7, 8, 9, 17, 18, 19, 21] [12]).1,
   (mergeHours_idempotent [6, 7, 8, 9, 17, 18, 19, 21] [12]).2 bookedExample Day.Monday
      rfl rfl rfl⟩

/-- C6, as stated, fails: in a state reached from the seed by opening Tuesday
and tapping 6 (anchor 6, pending 6), tapping the unbooked hour 8 twice leaves
pending 6, 7 instead of 6. -/
theorem toggle_symmetry_counterexample :
    Reachable initialState toggleExample ∧
    8 ∉ toggleExample.schedule Day.Tuesday ∧
    toggleExample.tempSelection = [6] ∧
    ((handleHourSelect toggleExample 8).bind (fun t => handleHourSelect t 8)).map
        (fun u => u.tempSelection) = some [6, 7] ∧
    ¬ ∀ (s : AppState) (day : Day) (h : Nat), s.view.day = some day → h ∉ s.schedule day →
        ∃ t u, handleHourSelect s h = some t ∧ handleHourSelect t h = some u ∧
          ∀ i, i ∈ u.tempSelection ↔ i ∈ s.tempSelection := by
  refine ⟨?_, by decide, rfl, by decide, ?_⟩
  · exact Reachable.next _ _
      (Reachable.next _ _ Reachable.start (Step.editClick initialState Day.Tuesday))
      (Step.hourSelect _ _ 6 rfl)
  · intro hall
    obtain ⟨t, u, ht, hu, hmem⟩ := hall toggleExample Day.Tuesday 8 rfl (by decide)
    have h1 : handleHourSelect toggleExample 8 =
        some { toggleExample with tempSelection := [6, 7, 8], selectionStart := none } := rfl
    rw [h1] at ht
    cases ht
    have h2 : handleHourSelect
        { toggleExample with tempSelection := [6, 7, 8], selectionStart := none } 8 =
        some { toggleExample with tempSelection := [6, 7], selectionStart := none } := rfl
    rw [h2] at hu
    cases hu
    exact absurd ((hmem 7).mp (by decide)) (by decide)

/-- C6, amended: when no anchor is set, tapping an unbooked hour twice returns
the pending array to the members it had; it is the very same array when the hour
was not pending, and a reordering of it when the pending array had no
duplicates. -/
theorem toggle_symmetry_no_anchor (s : AppState) (day : Day) (h : Nat)
    (hday : s.view.day = some day) (hanchor : s.selectionStart = none)
    (hB : h ∉ s.schedule day) :
    ∃ t u, handleHourSelect s h = some t ∧ handleHourSelect t h = some u ∧
      (∀ i, i ∈ u.tempSelection ↔ i ∈ s.tempSelection) ∧
      (h ∉ s.tempSelection → u.tempSelection = s.tempSelection) ∧
      (s.tempSelection.Nodup → u.tempSelection.Perm s.tempSelection) := by
  by_cases hP : h ∈ s.tempSelection
  · have hmem : ∀ i, i ∈ s.tempSelection.filter (fun x => x ≠ h) ++ [h] ↔ i ∈ s.tempSelection := by
      intro i
      simp only [List.mem_append, List.mem_filter, decide_eq_true_eq, List.mem_singleton]
      constructor
      · rintro (⟨hi, _⟩ | rfl)
        · exact hi
        · exact hP
      · intro hi
        by_cases hih : i = h
        · exact Or.inr hih
        · exact Or.inl ⟨hi, hih⟩
    have hnot : h ∉ s.tempSelection.filter (fun x => x ≠ h) := by
      simp [List.mem_filter]
    refine ⟨_, _, handleHourSelect_toggle s day h hday hB hP,
      handleHourSelect_first _ day h hday hanchor hB hnot, hmem, ?_, ?_⟩
    · intro hc
      exact absurd hP hc
    · intro hnd
      refine (List.perm_ext_iff_of_nodup ?_ hnd).mpr hmem
      refine List.Nodup.append (hnd.filter _) (List.nodup_singleton h) ?_
      intro x hx hx2
      rw [List.mem_singleton] at hx2
      subst hx2
      exact hnot hx
  · have hin : h ∈ s.tempSelection ++ [h] := by simp
    have hback : (s.tempSelection ++ [h]).filter (fun x => x ≠ h) = s.tempSelection := by
      rw [List.filter_append]
      have h1 : s.tempSelection.filter (fun x => x ≠ h) = s.tempSelection := by
        apply List.filter_eq_self.mpr
        intro x hx
        have : x ≠ h := fun hxh => hP (hxh ▸ hx)
        simpa using this
      rw [h1]
      simp
    refine ⟨_, _, handleHourSelect_first s day h hday hanchor hB hP,
      handleHourSelect_toggle _ day h hday hB hin, ?_, ?_, ?_⟩
    · intro i
      show i ∈ (s.tempSelection ++ [h]).filter (fun x => x ≠ h) ↔ i ∈ s.tempSelection
      rw [hback]
    · intro _
      exact hback
    · intro _
      show ((s.tempSelection ++ [h]).filter (fun x => x ≠ h)).Perm s.tempSelection
      rw [hback]

/-- C6, amended, on Tuesday of the seed schedule: tapping 6 twice with nothing
pending and no anchor leaves nothing pending. -/
theorem toggle_symmetry_no_anchor_witness :
    (∃ t u, handleHourSelect editTuesday 6 = some t ∧ handleHourSelect t 6 = some u ∧
      (∀ i, i ∈ u.tempSelection ↔ i ∈ editTuesday.tempSelection) ∧
      (6 ∉ editTuesday.tempSelection → u.tempSelection = editTuesday.tempSelection) ∧
      (editTuesday.tempSelection.Nodup → u.tempSelection.Perm editTuesday.tempSelection)) ∧
    ((handleHourSelect editTuesday 6).bind (fun t => handleHourSelect t 6)).map
        (fun u => u.tempSelection) = some [] :=
  ⟨toggle_symmetry_no_anchor editTuesday Day.Tuesday 6 rfl rfl (by decide), by decide⟩

/-- C7, as stated over the domain 0..24, fails at the first hour 0: on Tuesday of
the seed schedule (nothing booked), from an empty pending array and no anchor,
tapping 0 makes 0 pending and stores 0 in `selectionStart`, which the test
`!selectionStart` takes as unset; tapping 2 then leaves pending 0, 2 with the
anchor at 2, not the range 0, 1, 2 with the anchor unset. -/
theorem two_click_gesture_counterexample :
    0 ∉ editTuesday.schedule Day.Tuesday ∧ 2 ∉ editTuesday.schedule Day.Tuesday ∧
    editTuesday.tempSelection = [] ∧ editTuesday.selectionStart = none ∧
    (handleHourSelect editTuesday 0).map (fun t => (t.tempSelection, t.selectionStart))
      = some ([0], some 0) ∧
    ((handleHourSelect editTuesday 0).bind (fun t => handleHourSelect t 2)).map
        (fun u => (u.tempSelection, u.selectionStart)) = some ([0, 2], some 2) ∧
    ¬ ∀ (s : AppState) (day : Day) (a b : Nat), s.view.day = some day →
        s.tempSelection = [] → s.selectionStart = none → a ≠ b → a ≤ 24 → b ≤ 24 →
        a ∉ s.schedule day → b ∉ s.schedule day →
        ∃ t u, handleHourSelect s a = some t ∧ t.tempSelection = [a] ∧
          t.selectionStart = some a ∧ handleHourSelect t b = some u ∧
          (∀ i, i ∈ u.tempSelection ↔ (min a b ≤ i ∧ i ≤ max a b ∧ i ∉ s.schedule day)) ∧
          u.selectionStart = none := by
  refine ⟨by decide, by decide, rfl, rfl, by decide, by decide, ?_⟩
  intro hall
  obtain ⟨t, u, ht, _, _, hu, hmem, _⟩ :=
    hall editTuesday Day.Tuesday 0 2 rfl rfl rfl (by decide) (by decide) (by decide)
      (by decide) (by decide)
  have h1 : handleHourSelect editTuesday 0 =
      some { editTuesday with tempSelection := [0], selectionStart := some 0 } := rfl
  rw [h1] at ht
  cases ht
  have h2 : handleHourSelect
      { editTuesday with tempSelection := [0], selectionStart := some 0 } 2 =
      some { editTuesday with tempSelection := [0, 2], selectionStart := some 2 } := rfl
  rw [h2] at hu
  cases hu
  exact absurd ((hmem 1).mpr (by decide)) (by decide)

/-- C7, amended: the two-click gesture for a first hour other than 0. From an
empty pending array and no anchor, tapping the unbooked hour `a`, `a` not 0,
makes `a` pending and sets the anchor to `a`; tapping a different unbooked hour
`b` then is a range completion: pending holds exactly the unbooked hours from
`min a b` to `max a b` and the anchor is unset. This covers every pair of the
domain 0..24 whose first hour is in 1..24, and every pair of the grid 6..22. -/
theorem two_click_gesture_of_ne_zero (s : AppState) (day : Day) (a b : Nat)
    (hday : s.view.day = some day) (hP : s.tempSelection = []) (hanchor : s.selectionStart = none)
    (hab : a ≠ b) (ha0 : a ≠ 0) (haB : a ∉ s.schedule day) (hbB : b ∉ s.schedule day) :
    ∃ t u, handleHourSelect s a = some t ∧ t.tempSelection = [a] ∧ t.selectionStart = some a ∧
      handleHourSelect t b = some u ∧
      (∀ i, i ∈ u.tempSelection ↔ (min a b ≤ i ∧ i ≤ max a b ∧ i ∉ s.schedule day)) ∧
      u.selectionStart = none := by
  have haP : a ∉ s.tempSelection := by simp [hP]
  have hbP : b ∉ s.tempSelection ++ [a] := by
    simp only [hP, List.nil_append, List.mem_singleton]
    exact fun h => hab h.symm
  refine ⟨_, _, handleHourSelect_first s day a hday hanchor haB haP, by simp [hP], rfl,
    handleHourSelect_range _ day a b hday rfl ha0 hbB hbP, ?_, rfl⟩
  intro i
  simp only [mem_setSpread, List.mem_append, mem_newRange, hP, List.nil_append,
    List.mem_singleton]
  constructor
  · rintro (rfl | h)
    · exact ⟨Nat.min_le_left _ _, Nat.le_max_left _ _, haB⟩
    · exact h
  · intro h
    exact Or.inr h

/-- C7, amended, on Tuesday of the seed schedule: tapping 24 and then 0 leaves
the 25 hours of the whole domain pending with no anchor, and tapping 6 and then
10 on the grid leaves 6, 7, 8, 9, 10 pending with no anchor. -/
theorem two_click_gesture_of_ne_zero_witness :
    (∃ t u, handleHourSelect editTuesday 24 = some t ∧ t.tempSelection = [24] ∧
      t.selectionStart = some 24 ∧ handleHourSelect t 0 = some u ∧
      (∀ i, i ∈ u.tempSelection ↔
        (min 24 0 ≤ i ∧ i ≤ max 24 0 ∧ i ∉ editTuesday.schedule Day.Tuesday)) ∧
      u.selectionStart = none) ∧
    ((handleHourSelect editTuesday 24).bind (fun t => handleHourSelect t 0)).map
        (fun u => (u.tempSelection.length, u.selectionStart)) = some (25, none) ∧
    ((handleHourSelect editTuesday 6).bind (fun t => handleHourSelect t 10)).map
        (fun u => (u.tempSelection, u.selectionStart)) = some ([6, 7, 8, 9, 10], none) :=
  ⟨two_click_gesture_of_ne_zero editTuesday Day.Tuesday 24 0 rfl rfl rfl
      (by decide) (by decide) (by decide) (by decide), by decide, by decide⟩

theorem step_duplicateFree (s t : AppState) (hs : DuplicateFree s) (hst : Step s t) :
    DuplicateFree t := by
  obtain ⟨hsched, htemp⟩ := hs
  cases hst with
  | dayClick day => exact ⟨hsched, htemp⟩
  | editClick day => exact ⟨hsched, htemp⟩
  | backToWeekly => exact ⟨hsched, List.nodup_nil⟩
  | hourSelect _ hour h =>
    unfold handleHourSelect at h
    split at h
    · cases h
    · rename_i day hday
      split_ifs at h with hB hP
      · cases h
        exact ⟨hsched, htemp⟩
      · cases h
        exact ⟨hsched, htemp.filter _⟩
      · have hfirst : (s.tempSelection ++ [hour]).Nodup := by
          refine List.Nodup.append htemp (List.nodup_singleton hour) ?_
          intro x hx hx2
          rw [List.mem_singleton] at hx2
          subst hx2
          exact hP hx
        split at h
        · cases h
          exact ⟨hsched, hfirst⟩
        · cases h
          exact ⟨hsched, hfirst⟩
        · cases h
          exact ⟨hsched, nodup_setSpread _⟩
  | confirm _ h =>
    unfold handleConfirm at h
    split at h
    · cases h
    · rename_i day hday
      cases h
      refine ⟨?_, List.nodup_nil⟩
      intro d
      show (Function.update s.schedule day (mergeHours (s.schedule day) s.tempSelection) d).Nodup
      by_cases hd : d = day
      · subst hd
        rw [Function.update_same]
        exact nodup_mergeHours _ _
      · rw [Function.update_noteq hd]
        exact hsched d

/-- C9: uniqueness invariant. If every booked array and the pending array are
free of duplicates, they still are after any gesture (a tap on an hour in any of
its four branches, confirm, cancel, or a change of page); hence every state
reachable from a duplicate-free schedule with nothing pending is free of
duplicates, and the seed state of the component is such a start. -/
theorem duplicateFree_invariant :
    (∀ s t, DuplicateFree s → Step s t → DuplicateFree t) ∧
    (∀ s0 s, DuplicateFree s0 → s0.tempSelection = [] → Reachable s0 s → DuplicateFree s) ∧
    (DuplicateFree initialState ∧ initialState.tempSelection = []) := by
  refine ⟨step_duplicateFree, ?_, ?_, rfl⟩
  · intro s0 s h0 _ hr
    induction hr with
    | start => exact h0
    | next s t _ hst ih => exact step_duplicateFree s t ih hst
  · refine ⟨?_, List.nodup_nil⟩
    intro d
    cases d <;> decide

/-- C9, at the state reached from the seed by opening Tuesday and tapping 6. -/
theorem duplicateFree_invariant_witness :
    DuplicateFree initialState ∧ initialState.tempSelection = [] ∧
    Reachable initialState toggleExample ∧ DuplicateFree toggleExample :=
  have hr : Reachable initialState toggleExample :=
    Reachable.next _ _
      (Reachable.next _ _ Reachable.start (Step.editClick initialState Day.Tuesday))
      (Step.hourSelect _ _ 6 rfl)
  ⟨duplicateFree_invariant.2.2.1, rfl, hr,
   duplicateFree_invariant.2.1 initialState toggleExample duplicateFree_invariant.2.2.1 rfl hr⟩

/-! ## Claims about the time model -/

/-- C10: labels of `formatTime`. Hour 24 gives "12 AM", hour 12 gives "12 PM",
every hour from 13 to 23 gives the decimal of the hour minus 12 followed by
" PM", every hour from 1 to 11 gives the decimal of the hour followed by " AM",
and hours 0 and 24 get different labels. -/
theorem formatTime_labels (hour : Nat) (_hdom : hour ≤ 24) :
    (hour = 24 → formatTime hour = "12 AM") ∧
    (hour = 12 → formatTime hour = "12 PM") ∧
    (13 ≤ hour ∧ hour ≤ 23 → formatTime hour = toString (hour - 12) ++ " PM") ∧
    (1 ≤ hour ∧ hour ≤ 11 → formatTime hour = toString hour ++ " AM") ∧
    formatTime 0 ≠ formatTime 24 := by
  refine ⟨?_, ?_, ?_, ?_, by decide⟩
  · rintro rfl
    rfl
  · rintro rfl
    rfl
  · rintro ⟨h1, h2⟩
    unfold formatTime
    rw [if_neg (by omega), if_neg (by omega), if_pos (by omega)]
  · rintro ⟨h1, h2⟩
    unfold formatTime
    rw [if_neg (by omega), if_neg (by omega), if_neg (by omega)]

/-- C10, at the boundaries named by the specification. -/
theorem formatTime_labels_witness :
    formatTime 24 = "12 AM" ∧ formatTime 12 = "12 PM" ∧ formatTime 13 = "1 PM" ∧
    formatTime 6 = "6 AM" ∧ formatTime 0 ≠ formatTime 24 :=
  ⟨(formatTime_labels 24 (by decide)).1 rfl,
   (formatTime_labels 12 (by decide)).2.1 rfl,
   (formatTime_labels 13 (by decide)).2.2.1 ⟨by decide, by decide⟩,
   (formatTime_labels 6 (by decide)).2.2.2.1 ⟨by decide, by decide⟩,
   (formatTime_labels 0 (by decide)).2.2.2.2⟩

/-! ## Claims about the range compressor -/

theorem closeRanges_eq_closeRuns (l : List Nat) (start : Nat) (acc : List String) :
    closeRanges l start acc = acc ++ (closeRuns l start).map rangeLabel := by
  induction l generalizing start acc with
  | nil => simp [closeRanges, closeRuns]
  | cons cur tl ih =>
    cases tl with
    | nil => simp [closeRanges, closeRuns, rangeLabel]
    | cons next rest =>
      simp only [closeRanges, closeRuns]
      split_ifs with hne
      · rw [ih]
        simp [rangeLabel]
      · rw [ih]

theorem maxRunOf_congr (m₁ m₂ : Nat → Prop) (h : ∀ k, m₁ k ↔ m₂ k) (s e : Nat) :
    MaxRunOf m₁ s e ↔ MaxRunOf m₂ s e := by
  have : m₁ = m₂ := funext fun k => propext (h k)
  rw [this]

/-- The maximal runs of an interval `a..b` joined with a set that lies beyond
`b + 1` are the interval itself and the maximal runs of that set. -/
theorem maxRunOf_interval_union (a b : Nat) (hab : a ≤ b) (m : Nat → Prop)
    (hgap : ∀ k, m k → b + 1 < k) (s e : Nat) :
    MaxRunOf (fun k => (a ≤ k ∧ k ≤ b) ∨ m k) s e ↔ (s = a ∧ e = b) ∨ MaxRunOf m s e := by
  unfold MaxRunOf
  constructor
  · rintro ⟨hse, hall, hprev, hnext⟩
    rcases hall s le_rfl hse with ⟨hs1, hs2⟩ | hms
    · left
      have hsa : s = a := by
        by_contra hne
        exact hprev (s - 1) (by omega) (Or.inl ⟨by omega, by omega⟩)
      have heb : e ≤ b := by
        by_contra hgt
        rcases hall (b + 1) (by omega) (by omega) with ⟨_, h2⟩ | h2
        · omega
        · have := hgap _ h2
          omega
      have hbe : b ≤ e := by
        by_contra hlt
        exact hnext (Or.inl ⟨by omega, by omega⟩)
      exact ⟨hsa, by omega⟩
    · right
      have hsb := hgap s hms
      refine ⟨hse, ?_, ?_, ?_⟩
      · intro k hk1 hk2
        rcases hall k hk1 hk2 with ⟨_, h2⟩ | h2
        · omega
        · exact h2
      · intro k hk hmk
        exact hprev k hk (Or.inr hmk)
      · intro hmk
        exact hnext (Or.inr hmk)
  · rintro (⟨rfl, rfl⟩ | ⟨hse, hall, hprev, hnext⟩)
    · refine ⟨hab, ?_, ?_, ?_⟩
      · intro k hk1 hk2
        exact Or.inl ⟨hk1, hk2⟩
      · rintro k hk (⟨h1, _⟩ | hmk)
        · omega
        · have := hgap k hmk
          omega
      · rintro (⟨_, h2⟩ | hmk)
        · omega
        · have := hgap _ hmk
          omega
    · have hsb := hgap s (hall s le_rfl hse)
      refine ⟨hse, ?_, ?_, ?_⟩
      · intro k hk1 hk2
        exact Or.inr (hall k hk1 hk2)
      · rintro k hk (⟨_, h2⟩ | hmk)
        · omega
        · exact hprev k hk hmk
      · rintro (⟨_, h2⟩ | hmk)
        · omega
        · exact hnext hmk

theorem not_maxRunOf_false (s e : Nat) : ¬ MaxRunOf (fun _ => False) s e := by
  rintro ⟨hse, hall, _, _⟩
  exact hall s le_rfl hse

/-- What the loop of `formatSlotsForDay` closes, started at `cur` with the open
range beginning at `start`, on a strictly ascending array: the maximal runs of
the hours `start..cur` together with the rest of the array, in ascending order. -/
theorem closeRuns_spec (rest : List Nat) :
    ∀ (cur start : Nat), start ≤ cur → (cur :: rest).Sorted (fun a b => a < b) →
      (∀ s e, (s, e) ∈ closeRuns (cur :: rest) start ↔
        MaxRunOf (fun k => (start ≤ k ∧ k ≤ cur) ∨ k ∈ rest) s e) ∧
      (closeRuns (cur :: rest) start).Pairwise (fun p q => p.2 + 1 < q.1) ∧
      (∀ p ∈ closeRuns (cur :: rest) start, start ≤ p.1) := by
  induction rest with
  | nil =>
    intro cur start hsc _
    refine ⟨?_, ?_, ?_⟩
    · intro s e
      have := maxRunOf_interval_union start cur hsc (fun _ => False) (fun _ h => h.elim) s e
      simp only [List.not_mem_nil]
      rw [this]
      simp [closeRuns, not_maxRunOf_false]
    · simp [closeRuns]
    · simp [closeRuns]
  | cons next rest ih =>
    intro cur start hsc hsorted
    have hs := List.sorted_cons.mp hsorted
    have hcn : cur < next := hs.1 next (List.mem_cons_self _ _)
    have hs2 := List.sorted_cons.mp hs.2
    by_cases hne : next ≠ cur + 1
    · obtain ⟨ih1, ih2, ih3⟩ := ih next next le_rfl hs.2
      have hcl : closeRuns (cur :: next :: rest) start
          = (start, cur) :: closeRuns (next :: rest) next := by
        simp only [closeRuns, if_pos hne]
      rw [hcl]
      refine ⟨?_, ?_, ?_⟩
      · intro s e
        have hgap : ∀ k, k ∈ next :: rest → cur + 1 < k := by
          intro k hk
          rcases List.mem_cons.mp hk with rfl | hk
          · omega
          · have := hs2.1 k hk
            omega
        rw [maxRunOf_interval_union start cur hsc (fun k => k ∈ next :: rest) hgap s e]
        rw [List.mem_cons, ih1 s e, Prod.mk.injEq]
        apply or_congr Iff.rfl
        apply maxRunOf_congr
        intro k
        simp only [List.mem_cons]
        constructor
        · rintro (⟨h1, h2⟩ | h)
          · exact Or.inl (by omega)
          · exact Or.inr h
        · rintro (rfl | h)
          · exact Or.inl ⟨le_rfl, le_rfl⟩
          · exact Or.inr h
      · refine List.pairwise_cons.mpr ⟨?_, ih2⟩
        intro q hq
        have := ih3 q hq
        show cur + 1 < q.1
        omega
      · intro p hp
        rcases List.mem_cons.mp hp with rfl | hp
        · exact le_rfl
        · have := ih3 p hp
          omega
    · have hnext : next = cur + 1 := not_not.mp hne
      obtain ⟨ih1, ih2, ih3⟩ := ih next start (by omega) hs.2
      have hcl : closeRuns (cur :: next :: rest) start = closeRuns (next :: rest) start := by
        simp only [closeRuns, if_neg hne]
      rw [hcl]
      refine ⟨?_, ih2, ih3⟩
      intro s e
      rw [ih1 s e]
      apply maxRunOf_congr
      intro k
      simp only [List.mem_cons]
      constructor
      · rintro (⟨h1, h2⟩ | h)
        · by_cases hk : k = next
          · exact Or.inr (Or.inl hk)
          · exact Or.inl ⟨h1, by omega⟩
        · exact Or.inr (Or.inr h)
      · rintro (⟨h1, h2⟩ | rfl | h)
        · exact Or.inl ⟨h1, by omega⟩
        · exact Or.inl ⟨by omega, le_rfl⟩
        · exact Or.inr h

/-- C4: range compression. For a day whose booked array has no duplicates, in
any storage order, `formatSlotsForDay` returns the ", "-joined labels of a list
of runs (first hour, last hour) that is in ascending order and holds exactly the
maximal runs of consecutive booked hours; the label of the run from `s` to `e`
is the label of `s`, " to ", and the label of `e + 1`. An empty array gives the
empty string. -/
theorem formatSlotsForDay_compress (schedule : Schedule) (day : Day)
    (hnd : (schedule day).Nodup) :
    (∃ runs : List (Nat × Nat),
      formatSlotsForDay schedule day
        = ", ".intercalate
            (runs.map (fun p => formatTime p.1 ++ " to " ++ formatTime (p.2 + 1))) ∧
      runs.Pairwise (fun p q => p.1 < q.1) ∧
      ∀ s e, (s, e) ∈ runs ↔ IsMaximalRun (schedule day) s e) ∧
    (schedule day = [] → formatSlotsForDay schedule day = "") := by
  constructor
  · by_cases hempty : (schedule day).length = 0
    · have hnil : schedule day = [] := List.length_eq_zero.mp hempty
      refine ⟨[], ?_, List.Pairwise.nil, ?_⟩
      · simp [formatSlotsForDay, hnil]
        rfl
      · intro s e
        rw [hnil]
        simp only [List.not_mem_nil, false_iff]
        rintro ⟨hse, hall, _, _⟩
        exact absurd (hall s le_rfl hse) (List.not_mem_nil _)
    · have hsorted := strictSorted_sortAscending (schedule day) hnd
      have hmem := fun k => mem_sortAscending k (schedule day)
      cases hsa : sortAscending (schedule day) with
      | nil =>
        exfalso
        apply hempty
        have : (sortAscending (schedule day)).length = (schedule day).length :=
          List.length_insertionSort _ _
        rw [← this, hsa]
        rfl
      | cons h0 rest =>
        rw [hsa] at hsorted
        obtain ⟨h1, h2, h3⟩ := closeRuns_spec rest h0 h0 le_rfl hsorted
        refine ⟨closeRuns (h0 :: rest) h0, ?_, ?_, ?_⟩
        · simp only [formatSlotsForDay, if_neg hempty, hsa, List.headD_cons,
            closeRanges_eq_closeRuns, List.nil_append]
          rfl
        · refine h2.imp_of_mem ?_
          intro p q hp _ hpq
          have hle : p.1 ≤ p.2 := ((h1 p.1 p.2).mp hp).1
          omega
        · intro s e
          rw [h1 s e]
          apply maxRunOf_congr
          intro k
          rw [← hmem k, hsa, List.mem_cons]
          constructor
          · rintro (⟨h1, h2⟩ | h)
            · exact Or.inl (by omega)
            · exact Or.inr h
          · rintro (rfl | h)
            · exact Or.inl ⟨le_rfl, le_rfl⟩
            · exact Or.inr h
  · intro hnil
    simp [formatSlotsForDay, hnil]

/-- C4, on Monday of the seed schedule, the example of the specification. -/
theorem formatSlotsForDay_compress_witness :
    ((∃ runs : List (Nat × Nat),
      formatSlotsForDay initialSchedule Day.Monday
        = ", ".intercalate
            (runs.map (fun p => formatTime p.1 ++ " to " ++ formatTime (p.2 + 1))) ∧
      runs.Pairwise (fun p q => p.1 < q.1) ∧
      ∀ s e, (s, e) ∈ runs ↔ IsMaximalRun (initialSchedule Day.Monday) s e) ∧
    (initialSchedule Day.Monday = [] → formatSlotsForDay initialSchedule Day.Monday = "")) ∧
    formatSlotsForDay initialSchedule Day.Monday = "6 AM to 10 AM, 5 PM to 8 PM, 9 PM to 10 PM" ∧
    formatSlotsForDay (fun _ => [21, 7, 19, 6, 17, 9, 18, 8]) Day.Monday
      = "6 AM to 10 AM, 5 PM to 8 PM, 9 PM to 10 PM" ∧
    formatSlotsForDay initialSchedule Day.Tuesday = "" :=
  ⟨formatSlotsForDay_compress initialSchedule Day.Monday (by decide),
   by decide, by decide, by decide⟩

/-! ## Claims about the block calculator -/

/-- The inner loop of `calculateBlocks` returns, given enough iterations, the
last position of the stretch of booked positions that follows `e`. -/
theorem extendBlock_spec (hours bookedHours : List Nat) (fuel : Nat) :
    ∀ e, hours.length ≤ fuel + e + 1 →
      ∃ e', extendBlock hours bookedHours fuel e = some e' ∧ e ≤ e' ∧
        (∀ k, e < k → k ≤ e' → BookedAt hours bookedHours k) ∧
        ¬ BookedAt hours bookedHours (e' + 1) := by
  induction fuel with
  | zero =>
    intro e hfuel
    have hcond : ¬ (e + 1 < hours.length ∧ hours.getD (e + 1) 0 ∈ bookedHours) := by
      rintro ⟨h, _⟩
      omega
    refine ⟨e, ?_, le_rfl, ?_, hcond⟩
    · simp only [extendBlock, if_neg hcond]
    · intro k hk1 hk2
      omega
  | succ fuel ih =>
    intro e hfuel
    by_cases hcond : e + 1 < hours.length ∧ hours.getD (e + 1) 0 ∈ bookedHours
    · obtain ⟨e', he', hle, hall, hstop⟩ := ih (e + 1) (by omega)
      refine ⟨e', ?_, by omega, ?_, hstop⟩
      · simp only [extendBlock, if_pos hcond]
        exact he'
      · intro k hk1 hk2
        by_cases hk : k = e + 1
        · rw [hk]
          exact hcond
        · exact hall k (by omega) hk2
    · refine ⟨e, ?_, le_rfl, ?_, hcond⟩
      · simp only [extendBlock, if_neg hcond]
      · intro k hk1 hk2
        omega

/-- The outer loop of `calculateBlocks`, started at a position `i` that is not
inside a run and given enough iterations, appends the records of the maximal
runs of booked positions from `i` on, in ascending order. -/
theorem blocksLoop_spec (hours bookedHours : List Nat) (fuel : Nat) :
    ∀ (i : Nat) (acc : List Block), i ≤ hours.length → hours.length ≤ fuel + i →
      (∀ k, k + 1 = i → ¬ (BookedAt hours bookedHours k ∧ BookedAt hours bookedHours i)) →
      ∃ runs : List (Nat × Nat),
        blocksLoop hours bookedHours fuel i acc = some (acc ++ runs.map (blockOfRun hours)) ∧
        runs.Pairwise (fun p q => p.2 + 1 < q.1) ∧
        (∀ p ∈ runs, i ≤ p.1) ∧
        (∀ s e, (s, e) ∈ runs ↔ (i ≤ s ∧ MaxRunOf (BookedAt hours bookedHours) s e)) := by
  have hdone : ∀ i, hours.length ≤ i →
      ∀ s e, (s, e) ∈ ([] : List (Nat × Nat)) ↔
        (i ≤ s ∧ MaxRunOf (BookedAt hours bookedHours) s e) := by
    intro i hi s e
    simp only [List.not_mem_nil, false_iff]
    rintro ⟨his, hse, hall, _, _⟩
    have := (hall s le_rfl hse).1
    omega
  induction fuel with
  | zero =>
    intro i acc hi hfuel _
    refine ⟨[], ?_, List.Pairwise.nil, ?_, hdone i (by omega)⟩
    · simp only [blocksLoop, if_neg (show ¬ i < hours.length by omega), List.map_nil,
        List.append_nil]
    · intro p hp
      exact absurd hp (List.not_mem_nil _)
  | succ fuel ih =>
    intro i acc hi hfuel hpre
    by_cases hlt : i < hours.length
    · by_cases hbooked : hours.getD i 0 ∈ bookedHours
      · have hBi : BookedAt hours bookedHours i := ⟨hlt, hbooked⟩
        obtain ⟨e', he', hle, hall, hstop⟩ :=
          extendBlock_spec hours bookedHours hours.length i (by omega)
        have hall' : ∀ k, i ≤ k → k ≤ e' → BookedAt hours bookedHours k := by
          intro k hk1 hk2
          by_cases hk : k = i
          · rw [hk]
            exact hBi
          · exact hall k (by omega) hk2
        have he'lt : e' < hours.length := (hall' e' hle le_rfl).1
        obtain ⟨runs, hruns, hpw, hlb, hchar⟩ :=
          ih (e' + 1) (acc ++ [blockOfRun hours (i, e')]) (by omega) (by omega)
            (fun k _ h => hstop h.2)
        have hrun : MaxRunOf (BookedAt hours bookedHours) i e' :=
          ⟨hle, hall', fun k hk hBk => hpre k hk ⟨hBk, hBi⟩, hstop⟩
        refine ⟨(i, e') :: runs, ?_, ?_, ?_, ?_⟩
        · simp only [blocksLoop, if_pos hlt, if_pos hbooked, he']
          have happ : acc ++ List.map (blockOfRun hours) ((i, e') :: runs)
              = acc ++ [blockOfRun hours (i, e')] ++ List.map (blockOfRun hours) runs := by
            simp
          rw [happ]
          exact hruns
        · refine List.pairwise_cons.mpr ⟨?_, hpw⟩
          intro q hq
          have h1 := hlb q hq
          have h2 := ((hchar q.1 q.2).mp hq).2
          have h3 : BookedAt hours bookedHours q.1 := h2.2.1 q.1 le_rfl h2.1
          have h4 : q.1 ≠ e' + 1 := fun h => hstop (h ▸ h3)
          show e' + 1 < q.1
          omega
        · intro p hp
          rcases List.mem_cons.mp hp with rfl | hp
          · exact le_rfl
          · have := hlb p hp
            omega
        · intro s e
          rw [List.mem_cons, hchar s e, Prod.mk.injEq]
          constructor
          · rintro (⟨rfl, rfl⟩ | ⟨h1, h2⟩)
            · exact ⟨le_rfl, hrun⟩
            · exact ⟨by omega, h2⟩
          · rintro ⟨his, hmax⟩
            obtain ⟨hse, hall2, hprev2, hnext2⟩ := hmax
            by_cases hsi : s = i
            · left
              refine ⟨hsi, ?_⟩
              subst hsi
              by_contra hne
              rcases Nat.lt_or_gt_of_ne hne with hlt2 | hgt2
              · exact hnext2 (hall' (e + 1) (by omega) (by omega))
              · exact hstop (hall2 (e' + 1) (by omega) (by omega))
            · right
              refine ⟨?_, hse, hall2, hprev2, hnext2⟩
              by_contra hle2
              exact hprev2 (s - 1) (by omega) (hall' (s - 1) (by omega) (by omega))
      · have hnB : ¬ BookedAt hours bookedHours i := fun h => hbooked h.2
        obtain ⟨runs, hruns, hpw, hlb, hchar⟩ :=
          ih (i + 1) acc (by omega) (by omega)
            (fun k hk h => hnB (by
              have : k = i := by omega
              rw [← this]
              exact h.1))
        refine ⟨runs, ?_, hpw, ?_, ?_⟩
        · simp only [blocksLoop, if_pos hlt, if_neg hbooked]
          exact hruns
        · intro p hp
          have := hlb p hp
          omega
        · intro s e
          rw [hchar s e]
          constructor
          · rintro ⟨h1, h2⟩
            exact ⟨by omega, h2⟩
          · rintro ⟨h1, h2⟩
            refine ⟨?_, h2⟩
            have h3 : BookedAt hours bookedHours s := h2.2.1 s le_rfl h2.1
            have h4 : s ≠ i := fun h => hnB (h ▸ h3)
            omega
    · refine ⟨[], ?_, List.Pairwise.nil, ?_, hdone i (by omega)⟩
      · simp only [blocksLoop, if_neg hlt, List.map_nil, List.append_nil]
      · intro p hp
        exact absurd hp (List.not_mem_nil _)

/-- The loops of `calculateBlocks` finish within the iterations that the
embedding allows them: the function returns a list of records for every input. -/
theorem calculateBlocks_total (hours bookedHours : List Nat) :
    ∃ blocks, calculateBlocks hours bookedHours = some blocks := by
  obtain ⟨runs, hruns, _⟩ :=
    blocksLoop_spec hours bookedHours hours.length 0 [] (Nat.zero_le _) (by omega)
      (fun k hk => by omega)
  exact ⟨_, hruns⟩

/-- C5: block run detection. For every candidate array and every booked array,
`calculateBlocks` returns one record for each run (first position, last
position) of a list of runs that is in ascending order with a gap between any
two of them, and that holds exactly the maximal runs of consecutive candidate
positions whose hours are booked; the record of a run carries the hour at its
first position, `top` = three times the first position and `height` = three
times its number of positions, in rem. -/
theorem calculateBlocks_runs (hours bookedHours : List Nat) :
    ∃ runs : List (Nat × Nat),
      calculateBlocks hours bookedHours
        = some (runs.map (fun p =>
            { startHour := hours.getD p.1 0
              top := toString (p.1 * 3) ++ "rem"
              height := toString ((p.2 - p.1 + 1) * 3) ++ "rem" })) ∧
      runs.Pairwise (fun p q => p.1 < q.1 ∧ p.2 + 1 < q.1) ∧
      (∀ s e, (s, e) ∈ runs ↔
        (s ≤ e ∧ (∀ k, s ≤ k → k ≤ e → BookedAt hours bookedHours k) ∧
          (∀ k, k + 1 = s → ¬ BookedAt hours bookedHours k) ∧
          ¬ BookedAt hours bookedHours (e + 1))) := by
  obtain ⟨runs, hruns, hpw, _, hchar⟩ :=
    blocksLoop_spec hours bookedHours hours.length 0 [] (Nat.zero_le _) (by omega)
      (fun k hk => by omega)
  refine ⟨runs, ?_, ?_, ?_⟩
  · rw [List.nil_append] at hruns
    exact hruns
  · refine hpw.imp_of_mem ?_
    intro p q hp _ hpq
    have hle : p.1 ≤ p.2 := ((hchar p.1 p.2).mp hp).2.1
    exact ⟨by omega, hpq⟩
  · intro s e
    rw [hchar s e]
    constructor
    · rintro ⟨_, h⟩
      exact h
    · intro h
      exact ⟨Nat.zero_le _, h⟩

/-- C5, on the grid 6..22 at the examples of the specification: booked 6, 7, 8,
9 give one record at position 0 with four positions; booked 6, 7, 8, 9, 17, 18
give two records. -/
theorem calculateBlocks_runs_witness :
    (∃ runs : List (Nat × Nat),
      calculateBlocks gridHours [6, 7, 8, 9]
        = some (runs.map (fun p =>
            { startHour := gridHours.getD p.1 0
              top := toString (p.1 * 3) ++ "rem"
              height := toString ((p.2 - p.1 + 1) * 3) ++ "rem" })) ∧
      runs.Pairwise (fun p q => p.1 < q.1 ∧ p.2 + 1 < q.1) ∧
      (∀ s e, (s, e) ∈ runs ↔
        (s ≤ e ∧ (∀ k, s ≤ k → k ≤ e → BookedAt gridHours [6, 7, 8, 9] k) ∧
          (∀ k, k + 1 = s → ¬ BookedAt gridHours [6, 7, 8, 9] k) ∧
          ¬ BookedAt gridHours [6, 7, 8, 9] (e + 1)))) ∧
    calculateBlocks gridHours [6, 7, 8, 9]
      = some [{ startHour := 6, top := "0rem", height := "12rem" }] ∧
    calculateBlocks gridHours [6, 7, 8, 9, 17, 18]
      = some [{ startHour := 6, top := "0rem", height := "12rem" },
              { startHour := 17, top := "33rem", height := "6rem" }] :=
  ⟨calculateBlocks_runs gridHours [6, 7, 8, 9], by decide, by decide⟩

end ScheduleApp
